import Mathlib

/-!
Verification of the bit-banged I2C master in `src/i2c.cpp` (AVR watch
repository).  The C++ code drives two open-drain lines (SDA = PB0,
SCL = PB2) and is translated here at two levels of granularity:

* an event level, where each run of a transfer function produces the list
  of observable line events (start condition, stop condition, data bits
  driven by the master, acknowledgment bits sampled or driven), and the
  environment (every peer device together with the pull-up resistor) is an
  oracle `s : Nat → Bool` answering the successive `sda_read()` calls
  (`true` = line seen high, `false` = line seen low);

* a pin level, where each primitive pin helper is a transformation of the
  ATtiny85 registers `DDRB`/`PORTB`, kept as 8-bit natural numbers.

Delays (`i2c_delay`, a busy wait) have no observable effect in this model
and are dropped.
-/

namespace I2C

/-- One observable line event of the bit-banged master.
`bit v` is a data bit driven by the master during `write_byte`
(`v = true` means SDA released, i.e. logical 1; `v = false` means SDA
driven low).  `ackIn v` is the SDA level sampled by the master during the
ninth clock pulse of `write_byte` (`true` = high = NACK).  `bitIn v` is a
data bit sampled by the master during `read_byte`.  `ackOut a` is the
acknowledgment bit driven by the master after a received byte (`a = true`
means SDA driven low = ACK, per the source of `read_byte`). -/
inductive Ev : Type where
  | start : Ev
  | stop : Ev
  | bit : Bool → Ev
  | ackIn : Bool → Ev
  | bitIn : Bool → Ev
  | ackOut : Bool → Ev
  deriving DecidableEq

/-- The 8-iteration bit loop of `I2C::write_byte`: for each iteration the
driven SDA level is `b & 0x80`, then `b <<= 1` (an 8-bit register, hence
`% 256`). -/
def bitsOf : Nat → Nat → List Ev
  | _, 0 => []
  | b, n + 1 => Ev.bit ((b &&& 0x80) != 0) :: bitsOf ((b <<< 1) % 256) n

/-- The event trace of one `I2C::write_byte b` call whose sampled
acknowledgment bit was `v`.  The `uint8_t` parameter conversion is the
`% 256`. -/
def byteEvs (b : Nat) (v : Bool) : List Ev :=
  bitsOf (b % 256) 8 ++ [Ev.ackIn v]

/-- `I2C::write_byte` at the event level: transmits the 8 bits of `b`
most-significant-bit first, samples SDA once (oracle sample `k`) during
the ninth clock pulse, and returns `true` iff that sample was low.
Result: (ack, next oracle index, trace). -/
def write_byte (b : Nat) (s : Nat → Bool) (k : Nat) : Bool × Nat × List Ev :=
  (!(s k), k + 1, byteEvs b (s k))

/-- The 8-iteration loop of `I2C::read_byte`: `b <<= 1` (8-bit register),
one SDA sample per iteration, `b |= 1` when the sample was high.
Result: (assembled value, next oracle index, trace). -/
def readBits (s : Nat → Bool) : Nat → Nat → Nat → Nat × Nat × List Ev
  | b, k, 0 => (b, k, [])
  | b, k, n + 1 =>
    let b1 := (b <<< 1) % 256
    let b2 := if s k then b1 ||| 1 else b1
    let r := readBits s b2 (k + 1) n
    (r.1, r.2.1, Ev.bitIn (s k) :: r.2.2)

/-- `I2C::read_byte` at the event level: samples 8 bits
most-significant-bit first, then drives the acknowledgment bit
(`ack = true` drives SDA low).  Result: (byte, next oracle index, trace). -/
def read_byte (ack : Bool) (s : Nat → Bool) (k : Nat) : Nat × Nat × List Ev :=
  let r := readBits s 0 k 8
  (r.1, r.2.1, r.2.2 ++ [Ev.ackOut ack])

/-- The payload loop of `I2C::write` together with the trailing
`stop_condition()`: transmit the bytes in order, aborting (after an
unconditional stop) on the first byte whose acknowledgment fails;
a stop is also issued after the last byte on success. -/
def writeData (data : List Nat) (s : Nat → Bool) (k : Nat) : Bool × Nat × List Ev :=
  match data with
  | [] => (true, k, [Ev.stop])
  | d :: rest =>
    let w := write_byte d s k
    if w.1 then
      let r := writeData rest s w.2.1
      (r.1, r.2.1, w.2.2 ++ r.2.2)
    else
      (false, w.2.1, w.2.2 ++ [Ev.stop])

/-- `I2C::write`: start condition, address byte `(addr7 << 1) | 0`
(aborting with a stop if unacknowledged), then the payload loop.
Result: (success, next oracle index, trace). -/
def write (addr7 : Nat) (data : List Nat) (s : Nat → Bool) (k : Nat) :
    Bool × Nat × List Ev :=
  let a := write_byte ((addr7 <<< 1) ||| 0) s k
  if a.1 then
    let r := writeData data s a.2.1
    (r.1, r.2.1, Ev.start :: (a.2.2 ++ r.2.2))
  else
    (false, a.2.1, Ev.start :: (a.2.2 ++ [Ev.stop]))

/-- The receive loop of `I2C::read`, recursing on the number of bytes
still to receive: the master acknowledges every received byte except the
last one (`ack = (i + 1 < len)` in the source, i.e. `ack` iff at least
one more byte remains).  Result: (bytes, next oracle index, trace). -/
def readLoop (s : Nat → Bool) : Nat → Nat → List Nat × Nat × List Ev
  | k, 0 => ([], k, [])
  | k, rem + 1 =>
    let r1 := read_byte (decide (0 < rem)) s k
    let r2 := readLoop s r1.2.1 rem
    (r1.1 :: r2.1, r2.2.1, r1.2.2 ++ r2.2.2)

/-- `I2C::read`: start condition, address byte `(addr7 << 1) | 1`
(aborting with a stop if unacknowledged), then `len` received bytes and a
stop.  Result: (success, received bytes, next oracle index, trace). -/
def read (addr7 : Nat) (len : Nat) (s : Nat → Bool) (k : Nat) :
    Bool × List Nat × Nat × List Ev :=
  let a := write_byte ((addr7 <<< 1) ||| 1) s k
  if a.1 then
    let r := readLoop s a.2.1 len
    (true, r.1, r.2.1, Ev.start :: (a.2.2 ++ (r.2.2 ++ [Ev.stop])))
  else
    (false, [], a.2.1, Ev.start :: (a.2.2 ++ [Ev.stop]))

/-- `I2C::writeRegister`: a write with the 2-byte payload `{reg, val}`. -/
def writeRegister (addr7 reg val : Nat) (s : Nat → Bool) (k : Nat) :
    Bool × Nat × List Ev :=
  write addr7 [reg, val] s k

/-- `I2C::readRegister`: start, address in write mode, register byte,
repeated start, address in read mode, one byte read with NACK, stop; on
any failed acknowledgment a stop is issued and `val` (the reference
parameter, threaded through) is left unchanged.
Result: (success, final value of `val`, next oracle index, trace). -/
def readRegister (addr7 reg : Nat) (val : Nat) (s : Nat → Bool) (k : Nat) :
    Bool × Nat × Nat × List Ev :=
  let a1 := write_byte ((addr7 <<< 1) ||| 0) s k
  if !a1.1 then (false, val, a1.2.1, Ev.start :: (a1.2.2 ++ [Ev.stop])) else
  let a2 := write_byte reg s a1.2.1
  if !a2.1 then (false, val, a2.2.1, Ev.start :: (a1.2.2 ++ (a2.2.2 ++ [Ev.stop]))) else
  let a3 := write_byte ((addr7 <<< 1) ||| 1) s a2.2.1
  if !a3.1 then
    (false, val, a3.2.1,
      Ev.start :: (a1.2.2 ++ (a2.2.2 ++ (Ev.start :: (a3.2.2 ++ [Ev.stop])))))
  else
    let rb := read_byte false s a3.2.1
    (true, rb.1, rb.2.1,
      Ev.start :: (a1.2.2 ++ (a2.2.2 ++ (Ev.start :: (a3.2.2 ++ (rb.2.2 ++ [Ev.stop]))))))

/-! ### Pin-level model -/

/-- One primitive pin operation of the source (the helpers `sda_low`,
`sda_release`, `sda_read`, `scl_low`, `scl_release`). -/
inductive PinOp : Type where
  | sdaLow : PinOp
  | sdaRelease : PinOp
  | sdaRead : PinOp
  | sclLow : PinOp
  | sclRelease : PinOp
  deriving DecidableEq

/-- The two ATtiny85 I/O registers the driver touches, as 8-bit values. -/
structure Regs where
  ddrb : Nat
  portb : Nat
  deriving DecidableEq

/-- SDA pin index (PB0). -/
def SDA_b : Nat := 0

/-- SCL pin index (PB2). -/
def SCL_b : Nat := 2

/-- Register effect of one pin operation, straight from the source:
`sda_low` is `DDRB |= (1 << SDA_b); PORTB &= ~(1 << SDA_b)`,
`sda_release` is `DDRB &= ~(1 << SDA_b); PORTB &= ~(1 << SDA_b)`, and
symmetrically for SCL; `sda_read` only reads `PINB`.  The 8-bit complement
`~(1 << n)` is `255 ^^^ (1 <<< n)`. -/
def applyPin : PinOp → Regs → Regs
  | PinOp.sdaLow, r =>
      { ddrb := r.ddrb ||| (1 <<< SDA_b), portb := r.portb &&& (255 ^^^ (1 <<< SDA_b)) }
  | PinOp.sdaRelease, r =>
      { ddrb := r.ddrb &&& (255 ^^^ (1 <<< SDA_b)), portb := r.portb &&& (255 ^^^ (1 <<< SDA_b)) }
  | PinOp.sdaRead, r => r
  | PinOp.sclLow, r =>
      { ddrb := r.ddrb ||| (1 <<< SCL_b), portb := r.portb &&& (255 ^^^ (1 <<< SCL_b)) }
  | PinOp.sclRelease, r =>
      { ddrb := r.ddrb &&& (255 ^^^ (1 <<< SCL_b)), portb := r.portb &&& (255 ^^^ (1 <<< SCL_b)) }

/-- Running a sequence of pin operations. -/
def applyPins (ops : List PinOp) (r : Regs) : Regs :=
  ops.foldl (fun t op => applyPin op t) r

/-- `I2C::begin`: release both lines. -/
def beginOps : List PinOp := [PinOp.sdaRelease, PinOp.sclRelease]

/-- The 8-iteration bit loop of `I2C::write_byte` at pin level: per bit,
drive SDA to the bit value (`sda_release` for 1, `sda_low` for 0), release
SCL, drive SCL low. -/
def writeBitPins : Nat → Nat → List PinOp
  | _, 0 => []
  | b, n + 1 =>
    (if (b &&& 0x80) != 0 then PinOp.sdaRelease else PinOp.sdaLow) ::
      PinOp.sclRelease :: PinOp.sclLow :: writeBitPins ((b <<< 1) % 256) n

/-- `I2C::write_byte` at pin level: the 8 bit phases, then release SDA,
release SCL, sample SDA (oracle sample `k`), drive SCL low; returns `true`
iff the sample was low. -/
def write_byte_pins (b : Nat) (s : Nat → Bool) (k : Nat) : Bool × Nat × List PinOp :=
  (!(s k), k + 1,
    writeBitPins (b % 256) 8 ++
      [PinOp.sdaRelease, PinOp.sclRelease, PinOp.sdaRead, PinOp.sclLow])

/-! ### Observers -/

/-- MSB-first value of `n` oracle samples starting at sample `k` (the
first sample carries weight `2 ^ (n - 1)`). -/
def sampledBits (s : Nat → Bool) (k : Nat) : Nat → Nat
  | 0 => 0
  | n + 1 => (if s k then 2 ^ n else 0) + sampledBits s (k + 1) n

/-- Recognizes a stop-condition event. -/
def isStop : Ev → Bool
  | Ev.stop => true
  | _ => false

/-- Recognizes a start-condition event. -/
def isStart : Ev → Bool
  | Ev.start => true
  | _ => false

/-- Recognizes a master-driven data-bit event. -/
def isBit : Ev → Bool
  | Ev.bit _ => true
  | _ => false

/-- The sampled acknowledgment bits of a trace, in order
(`true` = line high = NACK). -/
def ackIns (tr : List Ev) : List Bool :=
  tr.filterMap (fun e => match e with | Ev.ackIn v => some v | _ => none)

/-- The acknowledgment bits driven by the master in a trace, in order
(`true` = driven low = ACK). -/
def ackOuts (tr : List Ev) : List Bool :=
  tr.filterMap (fun e => match e with | Ev.ackOut v => some v | _ => none)

/-- A trace issues exactly one stop condition, as its last event. -/
def oneTrailingStop (tr : List Ev) : Prop :=
  tr.countP isStop = 1 ∧ tr.getLast? = some Ev.stop

/-- Recognizes an SCL-release pin operation (each clock pulse releases SCL
exactly once). -/
def isSclRelease : PinOp → Bool
  | PinOp.sclRelease => true
  | _ => false

/-- Recognizes the SDA-sampling pin operation. -/
def isSdaRead : PinOp → Bool
  | PinOp.sdaRead => true
  | _ => false

/-- Both output-register bits of the two bus lines are clear: the master
is not actively driving either line high. -/
def portClear (r : Regs) : Prop :=
  r.portb.testBit SDA_b = false ∧ r.portb.testBit SCL_b = false

end I2C

namespace I2C

/-! ### Basic trace lemmas -/

lemma ackIns_append (l1 l2 : List Ev) : ackIns (l1 ++ l2) = ackIns l1 ++ ackIns l2 := by
  simp [ackIns]

lemma ackOuts_append (l1 l2 : List Ev) : ackOuts (l1 ++ l2) = ackOuts l1 ++ ackOuts l2 := by
  simp [ackOuts]

lemma bitsOf_countP_stop (b n : Nat) : (bitsOf b n).countP isStop = 0 := by
  induction n generalizing b with
  | zero => rfl
  | succ n ih => simp [bitsOf, ih, isStop]

lemma bitsOf_countP_start (b n : Nat) : (bitsOf b n).countP isStart = 0 := by
  induction n generalizing b with
  | zero => rfl
  | succ n ih => simp [bitsOf, ih, isStart]

lemma bitsOf_countP_bit (b n : Nat) : (bitsOf b n).countP isBit = n := by
  induction n generalizing b with
  | zero => rfl
  | succ n ih => simp [bitsOf, ih, isBit]

lemma bitsOf_ackIns (b n : Nat) : ackIns (bitsOf b n) = [] := by
  induction n generalizing b with
  | zero => rfl
  | succ n ih =>
    rw [bitsOf, ackIns, List.filterMap_cons]
    exact ih _

lemma bitsOf_ackOuts (b n : Nat) : ackOuts (bitsOf b n) = [] := by
  induction n generalizing b with
  | zero => rfl
  | succ n ih =>
    rw [bitsOf, ackOuts, List.filterMap_cons]
    exact ih _

lemma byteEvs_countP_stop (b : Nat) (v : Bool) : (byteEvs b v).countP isStop = 0 := by
  simp [byteEvs, bitsOf_countP_stop, isStop]

lemma byteEvs_countP_start (b : Nat) (v : Bool) : (byteEvs b v).countP isStart = 0 := by
  simp [byteEvs, bitsOf_countP_start, isStart]

lemma byteEvs_countP_bit (b : Nat) (v : Bool) : (byteEvs b v).countP isBit = 8 := by
  simp [byteEvs, bitsOf_countP_bit, isBit]

lemma byteEvs_ackIns (b : Nat) (v : Bool) : ackIns (byteEvs b v) = [v] := by
  rw [byteEvs, ackIns_append, bitsOf_ackIns]
  rfl

lemma byteEvs_ackOuts (b : Nat) (v : Bool) : ackOuts (byteEvs b v) = [] := by
  rw [byteEvs, ackOuts_append, bitsOf_ackOuts]
  rfl

/-! ### Pin-level lemmas -/

lemma testBit_and_false (x m i : Nat) (hx : x.testBit i = false) :
    (x &&& m).testBit i = false := by
  simp [Nat.testBit_and, hx]

lemma testBit_and_mask (x m i : Nat) (hm : m.testBit i = false) :
    (x &&& m).testBit i = false := by
  simp [Nat.testBit_and, hm]

lemma testBit_or_mask (x m i : Nat) (hm : m.testBit i = true) :
    (x ||| m).testBit i = true := by
  simp [Nat.testBit_or, hm]

lemma applyPin_portClear (op : PinOp) (r : Regs) (h : portClear r) :
    portClear (applyPin op r) := by
  cases op
  case sdaRead => exact h
  all_goals exact ⟨testBit_and_false _ _ _ h.1, testBit_and_false _ _ _ h.2⟩

lemma applyPins_portClear (ops : List PinOp) (r : Regs) (h : portClear r) :
    portClear (applyPins ops r) := by
  induction ops generalizing r with
  | nil => exact h
  | cons op rest ih => exact ih (applyPin op r) (applyPin_portClear op r h)

lemma beginOps_portClear (r : Regs) : portClear (applyPins beginOps r) := by
  exact ⟨testBit_and_false _ _ _ (testBit_and_mask _ _ _ (by decide)),
    testBit_and_mask _ _ _ (by decide)⟩

/-- C7: the master never actively drives a line high — after `begin`,
every sequence of pin operations leaves both lines' `PORTB` bits clear
(so an output line is driven low, and an input line has its pull-up
disabled); moreover each individual pin operation either drives its line
low (`DDRB` bit set, `PORTB` bit clear) or releases it to a
high-impedance input with the pull-up disabled (`DDRB` and `PORTB` bits
clear). -/
theorem spec_C7 : ∀ (ops : List PinOp) (r : Regs),
    ((applyPins ops (applyPins beginOps r)).portb.testBit SDA_b = false ∧
     (applyPins ops (applyPins beginOps r)).portb.testBit SCL_b = false) ∧
    (∀ t : Regs,
      (applyPin PinOp.sdaLow t).ddrb.testBit SDA_b = true ∧
      (applyPin PinOp.sdaLow t).portb.testBit SDA_b = false ∧
      (applyPin PinOp.sdaRelease t).ddrb.testBit SDA_b = false ∧
      (applyPin PinOp.sdaRelease t).portb.testBit SDA_b = false ∧
      (applyPin PinOp.sclLow t).ddrb.testBit SCL_b = true ∧
      (applyPin PinOp.sclLow t).portb.testBit SCL_b = false ∧
      (applyPin PinOp.sclRelease t).ddrb.testBit SCL_b = false ∧
      (applyPin PinOp.sclRelease t).portb.testBit SCL_b = false) := by
  intro ops r
  refine ⟨applyPins_portClear ops _ (beginOps_portClear r), fun t => ?_⟩
  exact ⟨testBit_or_mask _ _ _ (by decide), testBit_and_mask _ _ _ (by decide),
    testBit_and_mask _ _ _ (by decide), testBit_and_mask _ _ _ (by decide),
    testBit_or_mask _ _ _ (by decide), testBit_and_mask _ _ _ (by decide),
    testBit_and_mask _ _ _ (by decide), testBit_and_mask _ _ _ (by decide)⟩

/-- C8: `writeRegister(addr, reg, val)` is observationally identical to
`write(addr, [reg, val], 2)`: same returned boolean, same oracle
consumption, same line-event trace. -/
theorem spec_C8 : ∀ (addr7 reg val : Nat) (s : Nat → Bool) (k : Nat),
    writeRegister addr7 reg val s k = write addr7 [reg, val] s k := by
  intro addr7 reg val s k
  rfl

/-- C9: whenever `readRegister` fails (any of the three transmitted bytes
is not acknowledged), the reference parameter `val` is returned
unchanged; it is assigned only on the success path. -/
theorem spec_C9 : ∀ (addr7 reg val : Nat) (s : Nat → Bool) (k : Nat),
    (readRegister addr7 reg val s k).1 = false →
    (readRegister addr7 reg val s k).2.1 = val := by
  intro addr7 reg val s k h
  cases h1 : s k <;> cases h2 : s (k + 1) <;> cases h3 : s (k + 2) <;>
    simp [readRegister, write_byte, h1, h2, h3] at h ⊢

/-- Witness for C9: with a peer that never acknowledges, `readRegister`
fails and leaves `val = 5` untouched. -/
theorem spec_C9_witness :
    (readRegister 3 4 5 (fun _ => true) 0).1 = false ∧
    (readRegister 3 4 5 (fun _ => true) 0).2.1 = 5 :=
  ⟨by decide, spec_C9 3 4 5 (fun _ => true) 0 (by decide)⟩

end I2C

namespace I2C

lemma readBits_idx (s : Nat → Bool) : ∀ (n b k : Nat), (readBits s b k n).2.1 = k + n := by
  intro n
  induction n with
  | zero => intro b k; rfl
  | succ n ih =>
    intro b k
    simp only [readBits]
    rw [ih]
    omega

lemma readBits_trace (s : Nat → Bool) : ∀ (n b k : Nat),
    (readBits s b k n).2.2 = (List.range n).map (fun i => Ev.bitIn (s (k + i))) := by
  intro n
  induction n with
  | zero => intro b k; rfl
  | succ n ih =>
    intro b k
    simp only [readBits, ih, List.range_succ_eq_map, List.map_cons, List.map_map]
    have hf : ((fun i => Ev.bitIn (s (k + i))) ∘ Nat.succ) = (fun i => Ev.bitIn (s (k + 1 + i))) := by
      funext i
      simp only [Function.comp_apply]
      congr 2
      omega
    rw [hf]
    simp

lemma sampledBits_lt (s : Nat → Bool) : ∀ (n k : Nat), sampledBits s k n < 2 ^ n := by
  intro n
  induction n with
  | zero => intro k; simp [sampledBits]
  | succ n ih =>
    intro k
    have h := ih (k + 1)
    rw [sampledBits, pow_succ]
    cases hs : s k with
    | false => simp only [hs, Bool.false_eq_true, if_false]; omega
    | true => simp only [hs, if_true]; omega

lemma readBits_val (s : Nat → Bool) : ∀ (n b k : Nat), n ≤ 8 → b < 2 ^ (8 - n) →
    (readBits s b k n).1 = b * 2 ^ n + sampledBits s k n := by
  intro n
  induction n with
  | zero => intro b k _ _; simp [readBits, sampledBits]
  | succ n ih =>
    intro b k hn hb
    have e : (8 : Nat) - n = (8 - (n + 1)) + 1 := by omega
    have hp : (2 : Nat) ^ (8 - n) = 2 ^ (8 - (n + 1)) * 2 := by rw [e, pow_succ]
    have h2 : b * 2 < 2 ^ (8 - n) := by rw [hp]; omega
    have h256 : (2 : Nat) ^ (8 - n) ≤ 256 := by
      calc (2:Nat) ^ (8 - n) ≤ 2 ^ 8 := Nat.pow_le_pow_right (by norm_num) (by omega)
        _ = 256 := by norm_num
    have hsh : (b <<< 1) % 256 = b * 2 := by
      rw [Nat.shiftLeft_eq, pow_one, Nat.mod_eq_of_lt (by omega)]
    have hor : b * 2 ||| 1 = b * 2 + 1 := by
      have := Nat.mul_add_lt_is_or (i := 1) (b := 1) (by norm_num) b
      simpa [Nat.mul_comm] using this.symm
    have hb2 : (if s k = true then b * 2 + 1 else b * 2) < 2 ^ (8 - n) := by
      cases hs : s k with
      | false => simp only [hs, Bool.false_eq_true, if_false]; omega
      | true => simp only [hs, if_true]; omega
    simp only [readBits, hsh, hor]
    rw [ih _ (k + 1) (by omega) hb2]
    rw [sampledBits]
    cases hs : s k with
    | false => simp only [hs, Bool.false_eq_true, if_false]; ring
    | true => simp only [hs, if_true]; ring

lemma read_byte_val (a : Bool) (s : Nat → Bool) (k : Nat) :
    (read_byte a s k).1 = sampledBits s k 8 := by
  have h := readBits_val s 8 0 k (le_refl 8) (by norm_num)
  simpa [read_byte] using h

lemma read_byte_idx (a : Bool) (s : Nat → Bool) (k : Nat) :
    (read_byte a s k).2.1 = k + 8 := by
  simp [read_byte, readBits_idx]

lemma read_byte_trace (a : Bool) (s : Nat → Bool) (k : Nat) :
    (read_byte a s k).2.2 = (List.range 8).map (fun i => Ev.bitIn (s (k + i))) ++ [Ev.ackOut a] := by
  simp [read_byte, readBits_trace]

lemma sampledBits_testBit (s : Nat → Bool) :
    ∀ (n k i : Nat), i < n → (sampledBits s k n).testBit (n - 1 - i) = s (k + i) := by
  intro n
  induction n with
  | zero => intro k i h; omega
  | succ n ih =>
    intro k i hi
    rw [sampledBits]
    cases i with
    | zero =>
      simp only [Nat.add_zero, Nat.succ_sub_one, Nat.sub_zero]
      cases hs : s k with
      | false =>
        simp only [hs, Bool.false_eq_true, if_false, Nat.zero_add]
        exact Nat.testBit_lt_two_pow (sampledBits_lt s n (k + 1))
      | true =>
        simp only [hs, if_true]
        rw [Nat.testBit_two_pow_add_eq]
        rw [Nat.testBit_lt_two_pow (sampledBits_lt s n (k + 1))]
        rfl
    | succ j =>
      have hj : j < n := by omega
      have hidx : n + 1 - 1 - (j + 1) = n - 1 - j := by omega
      have hlt : n - 1 - j < n := by omega
      rw [hidx]
      cases hs : s k with
      | false =>
        simp only [hs, Bool.false_eq_true, if_false, Nat.zero_add]
        rw [ih (k + 1) j hj]
        congr 1
        omega
      | true =>
        simp only [hs, if_true]
        rw [Nat.testBit_two_pow_add_gt hlt]
        rw [ih (k + 1) j hj]
        congr 1
        omega

end I2C

namespace I2C

set_option maxRecDepth 4000 in
lemma bitsOf_testBit : ∀ b : Nat, b < 256 →
    bitsOf b 8 = (List.range 8).map (fun j => Ev.bit (b.testBit (7 - j))) := by
  decide

/-- C5: `write_byte b` places the 8 bits of `b` on the data line
most-significant-bit first (driven event number `j` carries bit `7 - j`
of `b`), and `read_byte` assembles the 8 sampled line levels
most-significant-bit first (sampled bit number `i` becomes bit `7 - i` of
the result). -/
theorem spec_C5 : ∀ (b : Nat) (a : Bool) (s : Nat → Bool) (k i : Nat),
    b < 256 → i < 8 →
    (write_byte b s k).2.2 =
      ((List.range 8).map (fun j => Ev.bit (b.testBit (7 - j)))) ++ [Ev.ackIn (s k)] ∧
    ((read_byte a s k).1).testBit (7 - i) = s (k + i) := by
  intro b a s k i hb hi
  constructor
  · simp [write_byte, byteEvs, Nat.mod_eq_of_lt hb, bitsOf_testBit b hb]
  · rw [read_byte_val]
    exact sampledBits_testBit s 8 k i hi

/-- Witness for C5 at the spec's example byte 0b10110010 and bit 2. -/
theorem spec_C5_witness :
    ((0xB2 : Nat) < 256 ∧ (2 : Nat) < 8) ∧
    ((write_byte 0xB2 (fun _ => false) 0).2.2 =
      ((List.range 8).map (fun j => Ev.bit ((0xB2 : Nat).testBit (7 - j)))) ++ [Ev.ackIn false] ∧
     ((read_byte false (fun _ => false) 0).1).testBit (7 - 2) = false) :=
  ⟨⟨by decide, by decide⟩, spec_C5 0xB2 false (fun _ => false) 0 2 (by decide) (by decide)⟩

lemma writeBitPins_countP (b n : Nat) :
    (writeBitPins b n).countP isSclRelease = n ∧ (writeBitPins b n).countP isSdaRead = 0 := by
  induction n generalizing b with
  | zero => exact ⟨rfl, rfl⟩
  | succ n ih =>
    rcases ih ((b <<< 1) % 256) with ⟨h1, h2⟩
    rw [writeBitPins]
    cases hb : ((b &&& 0x80) != 0) <;>
      simp [hb, List.countP_cons, isSclRelease, isSdaRead, h1, h2]

/-- C6: `write_byte` transmits the 8 data bits (each bit phase releasing
the clock exactly once), then releases the data line and pulses the clock
exactly once more, sampling SDA exactly once during that ninth pulse, and
returns `true` iff the sampled level was low. -/
theorem spec_C6 : ∀ (b : Nat) (s : Nat → Bool) (k : Nat),
    (write_byte_pins b s k).2.2 =
      writeBitPins (b % 256) 8 ++
        [PinOp.sdaRelease, PinOp.sclRelease, PinOp.sdaRead, PinOp.sclLow] ∧
    (writeBitPins (b % 256) 8).countP isSclRelease = 8 ∧
    (writeBitPins (b % 256) 8).countP isSdaRead = 0 ∧
    (write_byte_pins b s k).2.2.countP isSclRelease = 9 ∧
    (write_byte_pins b s k).2.2.countP isSdaRead = 1 ∧
    ((write_byte_pins b s k).1 = true ↔ s k = false) := by
  intro b s k
  rcases writeBitPins_countP (b % 256) 8 with ⟨h1, h2⟩
  refine ⟨rfl, h1, h2, ?_, ?_, ?_⟩
  · simp [write_byte_pins, List.countP_cons, isSclRelease, h1]
  · simp [write_byte_pins, List.countP_cons, isSdaRead, h2]
  · cases hs : s k <;> simp [write_byte_pins, hs]

end I2C

namespace I2C

lemma bitInMap_countP (p : Ev → Bool) (hp : ∀ v, p (Ev.bitIn v) = false)
    (f : Nat → Bool) (n : Nat) :
    ((List.range n).map (fun i => Ev.bitIn (f i))).countP p = 0 := by
  apply List.countP_eq_zero.mpr
  intro a ha
  rcases List.mem_map.mp ha with ⟨i, _, rfl⟩
  simp [hp]

lemma read_byte_countP_stop (a : Bool) (s : Nat → Bool) (k : Nat) :
    (read_byte a s k).2.2.countP isStop = 0 := by
  rw [read_byte_trace, List.countP_append]
  rw [bitInMap_countP isStop (fun v => rfl) (fun i => s (k + i)) 8]
  rfl

lemma read_byte_countP_start (a : Bool) (s : Nat → Bool) (k : Nat) :
    (read_byte a s k).2.2.countP isStart = 0 := by
  rw [read_byte_trace, List.countP_append]
  rw [bitInMap_countP isStart (fun v => rfl) (fun i => s (k + i)) 8]
  rfl

lemma read_byte_ackOuts (a : Bool) (s : Nat → Bool) (k : Nat) :
    ackOuts (read_byte a s k).2.2 = [a] := by
  rw [read_byte_trace, ackOuts_append]
  have h : ackOuts ((List.range 8).map (fun i => Ev.bitIn (s (k + i)))) = [] := by
    rw [ackOuts]
    apply List.filterMap_eq_nil_iff.mpr
    intro e he
    rcases List.mem_map.mp he with ⟨i, _, rfl⟩
    rfl
  rw [h]
  rfl

lemma writeData_stop (data : List Nat) (s : Nat → Bool) : ∀ k : Nat,
    ∃ pre, (writeData data s k).2.2 = pre ++ [Ev.stop] ∧ pre.countP isStop = 0 := by
  induction data with
  | nil => intro k; exact ⟨[], rfl, rfl⟩
  | cons d rest ih =>
    intro k
    cases hs : s k with
    | false =>
      rcases ih (k + 1) with ⟨pre, hp, hc⟩
      refine ⟨byteEvs d false ++ pre, ?_, ?_⟩
      · simp [writeData, write_byte, hs, hp]
      · simp [List.countP_append, byteEvs_countP_stop, hc]
    | true =>
      refine ⟨byteEvs d true, ?_, byteEvs_countP_stop d true⟩
      simp [writeData, write_byte, hs]

lemma writeData_acks (data : List Nat) (s : Nat → Bool) : ∀ k : Nat,
    ((writeData data s k).1 = true ∧
        ackIns (writeData data s k).2.2 = List.replicate data.length false ∨
      (writeData data s k).1 = false ∧
        ∃ m, m < data.length ∧
          ackIns (writeData data s k).2.2 = List.replicate m false ++ [true]) ∧
    (writeData data s k).2.2.countP isBit = 8 * (ackIns (writeData data s k).2.2).length := by
  induction data with
  | nil => intro k; exact ⟨Or.inl ⟨rfl, rfl⟩, rfl⟩
  | cons d rest ih =>
    intro k
    cases hs : s k with
    | false =>
      rcases ih (k + 1) with ⟨hres, hbits⟩
      have htr : (writeData (d :: rest) s k).2.2 =
          byteEvs d false ++ (writeData rest s (k + 1)).2.2 := by
        simp [writeData, write_byte, hs]
      have hres1 : (writeData (d :: rest) s k).1 = (writeData rest s (k + 1)).1 := by
        simp [writeData, write_byte, hs]
      have hack : ackIns (writeData (d :: rest) s k).2.2 =
          false :: ackIns (writeData rest s (k + 1)).2.2 := by
        rw [htr, ackIns_append, byteEvs_ackIns]
        rfl
      constructor
      · rcases hres with ⟨h1, h2⟩ | ⟨h1, m, hm, h2⟩
        · refine Or.inl ⟨by rw [hres1, h1], ?_⟩
          rw [hack, h2]
          rfl
        · refine Or.inr ⟨by rw [hres1, h1], m + 1, by simpa using by omega, ?_⟩
          rw [hack, h2]
          rfl
      · rw [htr, List.countP_append, byteEvs_countP_bit, ackIns_append, byteEvs_ackIns]
        simp only [List.singleton_append, List.length_cons]
        omega
    | true =>
      have htr : (writeData (d :: rest) s k).2.2 = byteEvs d true ++ [Ev.stop] := by
        simp [writeData, write_byte, hs]
      have hres1 : (writeData (d :: rest) s k).1 = false := by
        simp [writeData, write_byte, hs]
      have hack : ackIns (writeData (d :: rest) s k).2.2 = [true] := by
        rw [htr, ackIns_append, byteEvs_ackIns]
        rfl
      constructor
      · exact Or.inr ⟨hres1, 0, by simp, by rw [hack]; rfl⟩
      · rw [htr, List.countP_append, byteEvs_countP_bit, ackIns_append, byteEvs_ackIns]
        simp [isBit, ackIns]

end I2C

namespace I2C

lemma readLoop_countP_stop (s : Nat → Bool) : ∀ (n k : Nat),
    (readLoop s k n).2.2.countP isStop = 0 := by
  intro n
  induction n with
  | zero => intro k; rfl
  | succ n ih =>
    intro k
    simp only [readLoop, List.countP_append]
    rw [read_byte_countP_stop, ih]

lemma readLoop_ackOuts (s : Nat → Bool) : ∀ (n k : Nat), 1 ≤ n →
    ackOuts (readLoop s k n).2.2 = List.replicate (n - 1) true ++ [false] := by
  intro n
  induction n with
  | zero => omega
  | succ n ih =>
    intro k _
    have h : ackOuts (readLoop s k (n + 1)).2.2 =
        decide (0 < n) :: ackOuts (readLoop s (read_byte (decide (0 < n)) s k).2.1 n).2.2 := by
      simp only [readLoop, ackOuts_append]
      rw [read_byte_ackOuts]
      rfl
    cases n with
    | zero => rw [h]; rfl
    | succ m =>
      rw [h, ih _ (by omega)]
      simp [List.replicate_succ]

lemma oneTrailingStop_of (tr pre : List Ev) (h : tr = pre ++ [Ev.stop])
    (hc : pre.countP isStop = 0) : oneTrailingStop tr := by
  subst h
  constructor
  · simp [List.countP_append, hc, isStop]
  · exact List.getLast?_concat pre

lemma write_oneTrailingStop (addr7 : Nat) (data : List Nat) (s : Nat → Bool) (k : Nat) :
    oneTrailingStop (write addr7 data s k).2.2 := by
  cases hs : s k with
  | true =>
    apply oneTrailingStop_of _ (Ev.start :: byteEvs ((addr7 <<< 1) ||| 0) true)
    · simp [write, write_byte, hs]
    · simp [List.countP_cons, byteEvs_countP_stop, isStop]
  | false =>
    rcases writeData_stop data s (k + 1) with ⟨pre, hp, hc⟩
    apply oneTrailingStop_of _ (Ev.start :: (byteEvs ((addr7 <<< 1) ||| 0) false ++ pre))
    · simp [write, write_byte, hs, hp]
    · simp [List.countP_cons, List.countP_append, byteEvs_countP_stop, hc, isStop]

lemma read_oneTrailingStop (addr7 len : Nat) (s : Nat → Bool) (k : Nat) :
    oneTrailingStop (read addr7 len s k).2.2.2 := by
  cases hs : s k with
  | true =>
    apply oneTrailingStop_of _ (Ev.start :: byteEvs ((addr7 <<< 1) ||| 1) true)
    · simp [read, write_byte, hs]
    · simp [List.countP_cons, byteEvs_countP_stop, isStop]
  | false =>
    apply oneTrailingStop_of _
      (Ev.start :: (byteEvs ((addr7 <<< 1) ||| 1) false ++ (readLoop s (k + 1) len).2.2))
    · simp [read, write_byte, hs]
    · simp [List.countP_cons, List.countP_append, byteEvs_countP_stop,
        readLoop_countP_stop, isStop]

lemma readRegister_oneTrailingStop (addr7 reg val : Nat) (s : Nat → Bool) (k : Nat) :
    oneTrailingStop (readRegister addr7 reg val s k).2.2.2 := by
  cases h1 : s k with
  | true =>
    apply oneTrailingStop_of _ (Ev.start :: byteEvs ((addr7 <<< 1) ||| 0) true)
    · simp [readRegister, write_byte, h1]
    · simp [List.countP_cons, byteEvs_countP_stop, isStop]
  | false =>
    cases h2 : s (k + 1) with
    | true =>
      apply oneTrailingStop_of _
        (Ev.start :: (byteEvs ((addr7 <<< 1) ||| 0) false ++ byteEvs reg true))
      · simp [readRegister, write_byte, h1, h2]
      · simp [List.countP_cons, List.countP_append, byteEvs_countP_stop, isStop]
    | false =>
      cases h3 : s (k + 2) with
      | true =>
        apply oneTrailingStop_of _
          (Ev.start :: (byteEvs ((addr7 <<< 1) ||| 0) false ++ (byteEvs reg false ++
            (Ev.start :: byteEvs ((addr7 <<< 1) ||| 1) true))))
        · simp [readRegister, write_byte, h1, h2, h3]
        · simp [List.countP_cons, List.countP_append, byteEvs_countP_stop, isStop]
      | false =>
        apply oneTrailingStop_of _
          (Ev.start :: (byteEvs ((addr7 <<< 1) ||| 0) false ++ (byteEvs reg false ++
            (Ev.start :: (byteEvs ((addr7 <<< 1) ||| 1) false ++
              (read_byte false s (k + 3)).2.2)))))
        · simp [readRegister, write_byte, h1, h2, h3]
        · simp [List.countP_cons, List.countP_append, byteEvs_countP_stop,
            read_byte_countP_stop, isStop]

end I2C

namespace I2C

lemma write_acks (addr7 : Nat) (data : List Nat) (s : Nat → Bool) (k : Nat) :
    ((write addr7 data s k).1 = true ∧
        ackIns (write addr7 data s k).2.2 = List.replicate (data.length + 1) false ∨
      (write addr7 data s k).1 = false ∧
        ∃ m, m ≤ data.length ∧
          ackIns (write addr7 data s k).2.2 = List.replicate m false ++ [true]) ∧
    (write addr7 data s k).2.2.countP isBit = 8 * (ackIns (write addr7 data s k).2.2).length := by
  cases hs : s k with
  | true =>
    have htr : (write addr7 data s k).2.2 =
        Ev.start :: (byteEvs ((addr7 <<< 1) ||| 0) true ++ [Ev.stop]) := by
      simp [write, write_byte, hs]
    have hres : (write addr7 data s k).1 = false := by
      simp [write, write_byte, hs]
    have hack : ackIns (write addr7 data s k).2.2 = [true] := by
      rw [htr]
      show ackIns (byteEvs ((addr7 <<< 1) ||| 0) true ++ [Ev.stop]) = [true]
      rw [ackIns_append, byteEvs_ackIns]
      rfl
    constructor
    · exact Or.inr ⟨hres, 0, by omega, by rw [hack]; rfl⟩
    · rw [hack, htr]
      rw [show (Ev.start :: (byteEvs ((addr7 <<< 1) ||| 0) true ++ [Ev.stop])) =
        [Ev.start] ++ (byteEvs ((addr7 <<< 1) ||| 0) true ++ [Ev.stop]) from rfl]
      rw [List.countP_append, List.countP_append, byteEvs_countP_bit]
      rfl
  | false =>
    rcases writeData_acks data s (k + 1) with ⟨hres, hbits⟩
    have htr : (write addr7 data s k).2.2 =
        Ev.start :: (byteEvs ((addr7 <<< 1) ||| 0) false ++ (writeData data s (k + 1)).2.2) := by
      simp [write, write_byte, hs]
    have hres1 : (write addr7 data s k).1 = (writeData data s (k + 1)).1 := by
      simp [write, write_byte, hs]
    have hack : ackIns (write addr7 data s k).2.2 =
        false :: ackIns (writeData data s (k + 1)).2.2 := by
      rw [htr]
      show ackIns (byteEvs ((addr7 <<< 1) ||| 0) false ++ (writeData data s (k + 1)).2.2) =
        false :: ackIns (writeData data s (k + 1)).2.2
      rw [ackIns_append, byteEvs_ackIns]
      rfl
    constructor
    · rcases hres with ⟨h1, h2⟩ | ⟨h1, m, hm, h2⟩
      · refine Or.inl ⟨by rw [hres1, h1], ?_⟩
        rw [hack, h2]
        rfl
      · refine Or.inr ⟨by rw [hres1, h1], m + 1, by omega, ?_⟩
        rw [hack, h2]
        rfl
    · rw [hack, htr]
      rw [show (Ev.start :: (byteEvs ((addr7 <<< 1) ||| 0) false ++
          (writeData data s (k + 1)).2.2)) =
        [Ev.start] ++ (byteEvs ((addr7 <<< 1) ||| 0) false ++
          (writeData data s (k + 1)).2.2) from rfl]
      rw [List.countP_append, List.countP_append, byteEvs_countP_bit]
      have h0 : List.countP isBit [Ev.start] = 0 := rfl
      rw [h0]
      simp only [List.length_cons]
      omega

/-- C1: every transfer operation, on every input and every peer
behaviour, issues exactly one stop condition, as the final event of its
trace; moreover `write` aborts at the first unacknowledged byte: its
sampled acknowledgment bits are either all ACK (success, address plus all
payload bytes) or a run of ACKs ended by the single NACK (failure), and
exactly 8 data bits were driven for each acknowledgment sampled, so no
byte is transmitted after the failed one. -/
theorem spec_C1 : ∀ (addr7 : Nat) (data : List Nat) (len reg val : Nat)
    (s : Nat → Bool) (k : Nat),
    oneTrailingStop (write addr7 data s k).2.2 ∧
    oneTrailingStop (read addr7 len s k).2.2.2 ∧
    oneTrailingStop (readRegister addr7 reg val s k).2.2.2 ∧
    ((write addr7 data s k).1 = true ∧
        ackIns (write addr7 data s k).2.2 = List.replicate (data.length + 1) false ∨
      (write addr7 data s k).1 = false ∧
        ∃ m, m ≤ data.length ∧
          ackIns (write addr7 data s k).2.2 = List.replicate m false ++ [true]) ∧
    (write addr7 data s k).2.2.countP isBit = 8 * (ackIns (write addr7 data s k).2.2).length := by
  intro addr7 data len reg val s k
  rcases write_acks addr7 data s k with ⟨h1, h2⟩
  exact ⟨write_oneTrailingStop addr7 data s k, read_oneTrailingStop addr7 len s k,
    readRegister_oneTrailingStop addr7 reg val s k, h1, h2⟩

end I2C

namespace I2C

lemma writeData_allAck (s : Nat → Bool) : ∀ (data : List Nat) (k : Nat),
    (∀ j, j < data.length → s (k + j) = false) →
    writeData data s k =
      (true, k + data.length, (data.map (fun d => byteEvs d false)).flatten ++ [Ev.stop]) := by
  intro data
  induction data with
  | nil => intro k h; simp [writeData]
  | cons d rest ih =>
    intro k h
    have h0 : s k = false := by
      have := h 0 (by simp)
      simpa using this
    have hr : ∀ j, j < rest.length → s ((k + 1) + j) = false := by
      intro j hj
      have := h (j + 1) (by simp only [List.length_cons]; omega)
      have e : k + (j + 1) = (k + 1) + j := by omega
      rwa [e] at this
    rw [writeData]
    simp only [write_byte, h0]
    simp only [Bool.not_false, if_true]
    rw [ih (k + 1) hr]
    simp only [List.map_cons, List.flatten_cons, List.length_cons, List.append_assoc]
    have e : k + 1 + rest.length = k + (rest.length + 1) := by omega
    rw [e]

end I2C

namespace I2C

/-- C2: for a valid 7-bit address and a fully acknowledging peer, `write`
returns `true` and produces exactly: one start condition, the address
byte `(addr7 << 1) | 0` (write-direction bit clear, acknowledged), the
payload bytes in order (each acknowledged), and one stop condition — and
the trace contains exactly one start and one stop event. -/
theorem spec_C2 : ∀ (addr7 : Nat) (data : List Nat) (s : Nat → Bool) (k : Nat),
    addr7 < 128 →
    (∀ j, j ≤ data.length → s (k + j) = false) →
    write addr7 data s k =
      (true, k + data.length + 1,
        Ev.start :: (byteEvs ((addr7 <<< 1) ||| 0) false ++
          ((data.map (fun d => byteEvs d false)).flatten ++ [Ev.stop]))) ∧
    (write addr7 data s k).2.2.countP isStart = 1 ∧
    (write addr7 data s k).2.2.countP isStop = 1 := by
  intro addr7 data s k _ hall
  have h0 : s k = false := by
    have := hall 0 (by omega)
    simpa using this
  have hr : ∀ j, j < data.length → s ((k + 1) + j) = false := by
    intro j hj
    have := hall (j + 1) (by omega)
    have e : k + (j + 1) = (k + 1) + j := by omega
    rwa [e] at this
  have heq : write addr7 data s k =
      (true, k + data.length + 1,
        Ev.start :: (byteEvs ((addr7 <<< 1) ||| 0) false ++
          ((data.map (fun d => byteEvs d false)).flatten ++ [Ev.stop]))) := by
    rw [write]
    simp only [write_byte, h0, Bool.not_false, if_true]
    rw [writeData_allAck s data (k + 1) hr]
    have e : k + 1 + data.length = k + data.length + 1 := by omega
    rw [e]
  have hz : ∀ p : Ev → Bool, (∀ d v, (byteEvs d v).countP p = 0) →
      ((data.map (fun d => byteEvs d false)).map (List.countP p)).sum = 0 := by
    intro p hp
    apply List.sum_eq_zero
    intro x hx
    rcases List.mem_map.mp hx with ⟨l, hl, rfl⟩
    rcases List.mem_map.mp hl with ⟨d, hd, rfl⟩
    exact hp d false
  refine ⟨heq, ?_, ?_⟩
  · rw [heq]
    show List.countP isStart ([Ev.start] ++ (byteEvs ((addr7 <<< 1) ||| 0) false ++
      ((data.map (fun d => byteEvs d false)).flatten ++ [Ev.stop]))) = 1
    rw [List.countP_append, List.countP_append, List.countP_append,
      byteEvs_countP_start, List.countP_flatten, hz isStart byteEvs_countP_start]
    rfl
  · rw [heq]
    show List.countP isStop ([Ev.start] ++ (byteEvs ((addr7 <<< 1) ||| 0) false ++
      ((data.map (fun d => byteEvs d false)).flatten ++ [Ev.stop]))) = 1
    rw [List.countP_append, List.countP_append, List.countP_append,
      byteEvs_countP_stop, List.countP_flatten, hz isStop byteEvs_countP_stop]
    rfl

/-- Witness for C2 at the spec's scenario: `write(0x3C, [0xAE])` against
an always-acknowledging peer. -/
theorem spec_C2_witness :
    ((0x3C : Nat) < 128 ∧
      ∀ j, j ≤ ([0xAE] : List Nat).length → (fun _ => false : Nat → Bool) (0 + j) = false) ∧
    write 0x3C [0xAE] (fun _ => false) 0 =
      (true, 2,
        Ev.start :: (byteEvs ((0x3C <<< 1) ||| 0) false ++
          ((([0xAE] : List Nat).map (fun d => byteEvs d false)).flatten ++ [Ev.stop]))) :=
  ⟨⟨by decide, fun j _ => rfl⟩,
    (spec_C2 0x3C [0xAE] (fun _ => false) 0 (by decide) (fun j _ => rfl)).1⟩

end I2C

namespace I2C

/-- C3: after an acknowledged read-mode address byte, the master drives
an ACK (SDA low) after each of the first `len - 1` received bytes and a
NACK (SDA released) after the last one, for every `len ≥ 1`; for
`len = 0` the trace is just start, address byte, stop — no data phase. -/
theorem spec_C3 : ∀ (addr7 len : Nat) (s : Nat → Bool) (k : Nat),
    s k = false →
    (1 ≤ len →
      ackOuts (read addr7 len s k).2.2.2 = List.replicate (len - 1) true ++ [false]) ∧
    (len = 0 →
      (read addr7 len s k).2.2.2 =
        Ev.start :: (byteEvs ((addr7 <<< 1) ||| 1) false ++ [Ev.stop])) := by
  intro addr7 len s k hs
  have htr : (read addr7 len s k).2.2.2 =
      Ev.start :: (byteEvs ((addr7 <<< 1) ||| 1) false ++
        ((readLoop s (k + 1) len).2.2 ++ [Ev.stop])) := by
    simp [read, write_byte, hs]
  constructor
  · intro hlen
    rw [htr]
    show ackOuts (byteEvs ((addr7 <<< 1) ||| 1) false ++
      ((readLoop s (k + 1) len).2.2 ++ [Ev.stop])) = List.replicate (len - 1) true ++ [false]
    rw [ackOuts_append, byteEvs_ackOuts, ackOuts_append, readLoop_ackOuts s len (k + 1) hlen]
    simp [ackOuts]
  · intro h0
    subst h0
    rw [htr]
    rfl

/-- Witness for C3: a 3-byte read from address 0x3C with an
always-acknowledging peer: the master answers ACK, ACK, NACK. -/
theorem spec_C3_witness :
    ((fun _ => false : Nat → Bool) 0 = false) ∧
    ackOuts (read 0x3C 3 (fun _ => false) 0).2.2.2 = List.replicate 2 true ++ [false] :=
  ⟨rfl, (spec_C3 0x3C 3 (fun _ => false) 0 rfl).1 (by decide)⟩

end I2C

namespace I2C

/-- C4: when the three transmitted bytes are acknowledged, `readRegister`
issues exactly two address phases — write-direction
(`(addr7 << 1) | 0`) followed by the register byte, then read-direction
(`(addr7 << 1) | 1`) — joined by a repeated start with no intervening
stop (the trace holds exactly two starts and a single, final stop), then
reads exactly one data byte answered with NACK, and returns `true` with
that byte (the MSB-first value of the 8 sampled bits) in `val`. -/
theorem spec_C4 : ∀ (addr7 reg val : Nat) (s : Nat → Bool) (k : Nat),
    s k = false → s (k + 1) = false → s (k + 2) = false →
    readRegister addr7 reg val s k =
      (true, sampledBits s (k + 3) 8, k + 11,
        Ev.start :: (byteEvs ((addr7 <<< 1) ||| 0) false ++
          (byteEvs reg false ++
            (Ev.start :: (byteEvs ((addr7 <<< 1) ||| 1) false ++
              (((List.range 8).map (fun i => Ev.bitIn (s (k + 3 + i)))) ++
                ([Ev.ackOut false] ++ [Ev.stop]))))))) ∧
    (readRegister addr7 reg val s k).2.2.2.countP isStart = 2 ∧
    (readRegister addr7 reg val s k).2.2.2.countP isStop = 1 := by
  intro addr7 reg val s k h1 h2 h3
  have heq : readRegister addr7 reg val s k =
      (true, sampledBits s (k + 3) 8, k + 11,
        Ev.start :: (byteEvs ((addr7 <<< 1) ||| 0) false ++
          (byteEvs reg false ++
            (Ev.start :: (byteEvs ((addr7 <<< 1) ||| 1) false ++
              (((List.range 8).map (fun i => Ev.bitIn (s (k + 3 + i)))) ++
                ([Ev.ackOut false] ++ [Ev.stop]))))))) := by
    rw [readRegister]
    simp only [write_byte, h1, h2, h3, Bool.not_false, Bool.not_true, if_false,
      Bool.false_eq_true, if_true, ite_false, ite_true]
    rw [read_byte_val, read_byte_idx, read_byte_trace]
    have e : k + 1 + 1 + 1 = k + 3 := by omega
    rw [e]
    have e2 : k + 3 + 8 = k + 11 := by omega
    rw [e2]
    simp [List.append_assoc]
  refine ⟨heq, ?_, ?_⟩
  · have htr := congrArg (fun t => t.2.2.2) heq
    simp only at htr
    rw [htr]
    show List.countP isStart ([Ev.start] ++ (byteEvs ((addr7 <<< 1) ||| 0) false ++
      (byteEvs reg false ++
        ([Ev.start] ++ (byteEvs ((addr7 <<< 1) ||| 1) false ++
          (((List.range 8).map (fun i => Ev.bitIn (s (k + 3 + i)))) ++
            ([Ev.ackOut false] ++ [Ev.stop]))))))) = 2
    rw [List.countP_append, List.countP_append, List.countP_append, List.countP_append,
      List.countP_append, List.countP_append, List.countP_append,
      byteEvs_countP_start, byteEvs_countP_start, byteEvs_countP_start,
      bitInMap_countP isStart (fun v => rfl) (fun i => s (k + 3 + i)) 8]
    rfl
  · have htr := congrArg (fun t => t.2.2.2) heq
    simp only at htr
    rw [htr]
    show List.countP isStop ([Ev.start] ++ (byteEvs ((addr7 <<< 1) ||| 0) false ++
      (byteEvs reg false ++
        ([Ev.start] ++ (byteEvs ((addr7 <<< 1) ||| 1) false ++
          (((List.range 8).map (fun i => Ev.bitIn (s (k + 3 + i)))) ++
            ([Ev.ackOut false] ++ [Ev.stop]))))))) = 1
    rw [List.countP_append, List.countP_append, List.countP_append, List.countP_append,
      List.countP_append, List.countP_append, List.countP_append,
      byteEvs_countP_stop, byteEvs_countP_stop, byteEvs_countP_stop,
      bitInMap_countP isStop (fun v => rfl) (fun i => s (k + 3 + i)) 8]
    rfl

/-- Witness for C4 at the spec's scenario: `readRegister(0x50, 0x00)`
against a peer returning 0x42 (the oracle acknowledges the three writes
and answers the bit pattern 01000010). -/
theorem spec_C4_witness :
    ((fun n => n == 4 || n == 9 : Nat → Bool) 0 = false) ∧
    (readRegister 0x50 0x00 7 (fun n => n == 4 || n == 9) 0).1 = true ∧
    (readRegister 0x50 0x00 7 (fun n => n == 4 || n == 9) 0).2.1 = 0x42 := by
  have h := spec_C4 0x50 0x00 7 (fun n => n == 4 || n == 9) 0 rfl rfl rfl
  refine ⟨rfl, ?_, ?_⟩
  · rw [h.1]
  · rw [h.1]
    decide

end I2C

namespace I2C

lemma write_byte_congr (b c : Nat) (h : b % 256 = c % 256) (s : Nat → Bool) (k : Nat) :
    write_byte b s k = write_byte c s k := by
  simp [write_byte, byteEvs, h]

/-- C10: the transfer functions truncate the address byte to 8 bits, so
the most significant bit of an 8-bit address argument is silently
discarded: `write` and `read` behave exactly as with `addr mod 128`. -/
theorem spec_C10 : ∀ (a : Nat) (data : List Nat) (len : Nat) (s : Nat → Bool) (k : Nat),
    a < 256 →
    write a data s k = write (a % 128) data s k ∧
    read a len s k = read (a % 128) len s k := by
  intro a data len s k _
  have e1 : a <<< 1 ||| 0 = a * 2 := by
    rw [Nat.shiftLeft_eq, pow_one, Nat.or_zero]
  have e1m : (a % 128) <<< 1 ||| 0 = (a % 128) * 2 := by
    rw [Nat.shiftLeft_eq, pow_one, Nat.or_zero]
  have f1 : a <<< 1 ||| 1 = a * 2 + 1 := by
    rw [Nat.shiftLeft_eq, pow_one]
    have := Nat.mul_add_lt_is_or (i := 1) (b := 1) (by norm_num) a
    simpa [Nat.mul_comm] using this.symm
  have f1m : (a % 128) <<< 1 ||| 1 = (a % 128) * 2 + 1 := by
    rw [Nat.shiftLeft_eq, pow_one]
    have := Nat.mul_add_lt_is_or (i := 1) (b := 1) (by norm_num) (a % 128)
    simpa [Nat.mul_comm] using this.symm
  have h0 : (a <<< 1 ||| 0) % 256 = ((a % 128) <<< 1 ||| 0) % 256 := by
    rw [e1, e1m]
    omega
  have h1 : (a <<< 1 ||| 1) % 256 = ((a % 128) <<< 1 ||| 1) % 256 := by
    rw [f1, f1m]
    omega
  constructor
  · simp only [write]
    rw [write_byte_congr _ _ h0 s k]
  · simp only [read]
    rw [write_byte_congr _ _ h1 s k]

/-- Witness for C10 at the out-of-range address 200 (= 0xC8):
`write` and `read` behave as at address 72 (= 200 mod 128). -/
theorem spec_C10_witness :
    (200 : Nat) < 256 ∧
    (write 200 [5] (fun _ => false) 0 = write 72 [5] (fun _ => false) 0 ∧
     read 200 2 (fun _ => false) 0 = read 72 2 (fun _ => false) 0) :=
  ⟨by decide, spec_C10 200 [5] 2 (fun _ => false) 0 (by decide)⟩

end I2C
